import Mathlib

/-!
Verification of the exponential (positional, mixed-radix) codec in
`datatiles/encoding/exponential.py`: the scalar `encode`/`decode` pair, the
streaming `ExponentialEncoder`/`ExponentialDecoder` classes over numpy
arrays, and a small object-store model used to reason about aliasing and
mutation of the arrays handed to the decoder.

Modelling conventions:
  - Python integers are `Int`; machine integers (numpy dtypes) are handled
    by recording the dtype modulus (for example `2 ^ 32` for the default
    `uint32`) and reducing with `%` where the code casts or wraps.
  - A numpy array is a shape, the flattened element list, and its dtype
    modulus; elementwise numpy operations become `List.map`/`List.zip`.
  - Python `/` on the exactly-divisible quantities used by `decode`
    (`(encoded - remainder) / factor`) is modelled as exact integer
    division: the remainder is subtracted first, so the quotient is an
    integer and every division convention agrees on it.
  - Fallible calls return `Except PyError`; each distinct `raise` site in
    the source is a distinct error kind, named as in the specification.
-/

namespace Datatiles

/-- Decidable equality on `Except` results, so that concrete codec outcomes
can be checked by `decide`. -/
instance {ε α : Type} [DecidableEq ε] [DecidableEq α] : DecidableEq (Except ε α) :=
  fun a b =>
    match a, b with
    | .ok x, .ok y =>
        if h : x = y then .isTrue (by rw [h]) else .isFalse (fun hh => h (Except.ok.inj hh))
    | .error x, .error y =>
        if h : x = y then .isTrue (by rw [h]) else .isFalse (fun hh => h (Except.error.inj hh))
    | .ok _, .error _ => .isFalse (fun h => Except.noConfusion h)
    | .error _, .ok _ => .isFalse (fun h => Except.noConfusion h)

/-- Failure kinds of the codec, one per raise site in
`datatiles/encoding/exponential.py` (the source raises `ValueError` with a
distinct message at each site; the spec names them as distinct kinds).
`attributeError` models Python's `AttributeError` on the unreachable
`None`-array path of `ExponentialEncoder.add`. -/
inductive PyError where
  | invalidInputError
  | invalidBaseError
  | valueTooLargeError
  | shapeMismatchError
  | attributeError
  deriving DecidableEq

/-- The Python argument passed to scalar `encode`: the tests exercise
`None`, a bare integer and list inputs; only the list is iterable. -/
inductive EncodeInput where
  | noneVal
  | intVal (z : Int)
  | listVal (values : List Int)
  deriving DecidableEq

/-- Python `max(values)` on a non-empty list of integers (the empty case is
unreachable: `encode` rejects empty input before calling `max`). -/
def listMax : List Int → Int
  | [] => 0
  | v :: rest => rest.foldl max v

/-- The accumulation loop of scalar `encode`, started at position `i`:
`encoded += value * (base ** position)` for each value in order. -/
def weightedSumFrom (base : Int) : List Int → Nat → Int
  | [], _ => 0
  | v :: rest, i => v * base ^ i + weightedSumFrom base rest (i + 1)

/-- The sum `Σ values[i] * base^i` computed by the loop of scalar `encode`. -/
def weightedSum (values : List Int) (base : Int) : Int :=
  weightedSumFrom base values 0

/-- Scalar `encode(values, base=10)`: checks iterability, non-emptiness,
`base <= 1` and `max(values) > base`, in that order, then returns the
weighted sum. -/
def encode (values : EncodeInput) (base : Int) : Except PyError Int :=
  match values with
  | .listVal vs =>
      if vs.length = 0 then .error .invalidInputError
      else if base ≤ 1 then .error .invalidBaseError
      else if listMax vs > base then .error .valueTooLargeError
      else .ok (weightedSum vs base)
  | _ => .error .invalidInputError

/-- The countdown loop of scalar `decode`: the loop index runs from
`size - 1` down to `0`; at index `0` the remaining value is the decoded
value directly, otherwise the quotient by `base ** i` is decoded and the
remainder becomes the new `encoded`.  The produced list is in
descending-index order, exactly as the source builds `values`. -/
def decodeDown (base : Int) : Nat → Int → List Int
  | 0, encoded => [encoded]
  | i + 1, encoded =>
      (encoded - encoded % base ^ (i + 1)) / base ^ (i + 1) ::
        decodeDown base i (encoded % base ^ (i + 1))

/-- Scalar `decode(encoded, base=10, size=1)`: decodes most-significant
first via `decodeDown`, then reverses into original insertion order.  For
`size = 0` the source loop body never runs and the empty list is returned. -/
def decode (encoded : Int) (base : Int) (size : Nat) : List Int :=
  if size = 0 then [] else (decodeDown base (size - 1) encoded).reverse

/-- A numpy integer array: shape, flattened elements, and the modulus of its
unsigned dtype (`2 ^ 32` for the default `uint32`). -/
structure NdArray where
  shape : List Nat
  data : List Int
  dtypeMod : Nat
  deriving DecidableEq

/-- State of `ExponentialEncoder`: configured dtype modulus and base, the
running combined array (`none` before the first `add`), and the 0-based
count of layers added so far. -/
structure ExponentialEncoder where
  dtypeMod : Nat
  base : Int
  encoded : Option NdArray
  index : Nat
  deriving DecidableEq

/-- `ExponentialEncoder.__init__(dtype="uint32", base=10)`: stores the
configuration with no combined array yet. -/
def ExponentialEncoder.init (dtypeMod : Nat) (base : Int) : ExponentialEncoder :=
  { dtypeMod := dtypeMod, base := base, encoded := none, index := 0 }

/-- `ExponentialEncoder.add(arr)`: on the first call stores
`arr.copy().astype(self._dtype)` (an unsigned cast, i.e. reduction modulo
the dtype modulus); on later calls requires the shape to match the combined
array and accumulates `arr * (base ** index)` elementwise, wrapping in the
combined array's dtype as the in-place `+=` does. -/
def ExponentialEncoder.add (e : ExponentialEncoder) (arr : NdArray) :
    Except PyError ExponentialEncoder :=
  if e.index = 0 then
    .ok { e with
          encoded := some ⟨arr.shape, arr.data.map (fun z => z % (e.dtypeMod : Int)),
                           e.dtypeMod⟩,
          index := e.index + 1 }
  else
    match e.encoded with
    | none => .error .attributeError
    | some prev =>
        if arr.shape ≠ prev.shape then .error .shapeMismatchError
        else
          .ok { e with
                encoded := some ⟨prev.shape,
                  (prev.data.zip arr.data).map
                    (fun q => (q.1 + q.2 * e.base ^ e.index) % (e.dtypeMod : Int)),
                  prev.dtypeMod⟩,
                index := e.index + 1 }

/-- The `values` accessor: a copy of the current combined array (in this
functional model a copy is the value itself; `none` before the first add,
where Python would fail on `None.copy()`). -/
def ExponentialEncoder.values (e : ExponentialEncoder) : Option NdArray :=
  e.encoded

/-- Add a list of arrays to the encoder in order, stopping at the first
failing `add`. -/
def addAll (e : ExponentialEncoder) : List NdArray → Except PyError ExponentialEncoder
  | [] => .ok e
  | arr :: rest =>
      match e.add arr with
      | .ok e1 => addAll e1 rest
      | .error err => .error err

/-- State of `ExponentialDecoder`: the remaining combined array (consumed
across iterations), the layer count, and the base. -/
structure ExponentialDecoder where
  encoded : NdArray
  size : Nat
  base : Int
  deriving DecidableEq

/-- `ExponentialDecoder.__init__(encoded, size, base=10)`. -/
def ExponentialDecoder.init (encoded : NdArray) (size : Nat) (base : Int) :
    ExponentialDecoder :=
  ⟨encoded, size, base⟩

/-- One yield of the generator in `ExponentialDecoder.decode`, at loop index
`index`: at index `0` it yields the remaining array itself with no
arithmetic; otherwise it yields the elementwise quotient by `base ** index`
(cast back to the array's dtype, as `.astype` does) and the elementwise
remainder replaces the remaining array. -/
def ExponentialDecoder.step (d : ExponentialDecoder) (index : Nat) :
    NdArray × ExponentialDecoder :=
  if index = 0 then (d.encoded, d)
  else
    (⟨d.encoded.shape,
      d.encoded.data.map
        (fun z => ((z - z % d.base ^ index) / d.base ^ index) % (d.encoded.dtypeMod : Int)),
      d.encoded.dtypeMod⟩,
     { d with encoded := ⟨d.encoded.shape,
         d.encoded.data.map (fun z => z % d.base ^ index), d.encoded.dtypeMod⟩ })

/-- Run the decode generator over an explicit list of loop indices,
collecting the yielded arrays and the final decoder state. -/
def ExponentialDecoder.run (d : ExponentialDecoder) :
    List Nat → List NdArray × ExponentialDecoder
  | [] => ([], d)
  | i :: rest =>
      ((d.step i).1 :: ((d.step i).2.run rest).1, ((d.step i).2.run rest).2)

/-- The loop indices of `decode()`: `size - 1` down to `0`. -/
def ExponentialDecoder.indices (d : ExponentialDecoder) : List Nat :=
  (List.range d.size).reverse

/-- A heap of numpy array objects; a reference is an index into the heap. -/
abbrev Store := List NdArray

/-- Dereference a store reference (absent references yield a junk empty
array; unreachable in the modelled programs). -/
def Store.read (s : Store) (r : Nat) : NdArray :=
  s.getD r ⟨[], [], 0⟩

/-- In-place mutation of the array object behind a reference, as a numpy
in-place operator (such as the encoder's `+=`) would perform. -/
def Store.write (s : Store) (r : Nat) (a : NdArray) : Store :=
  s.set r a

/-- Allocate a fresh array object, returning the new store and the
reference to the new object. -/
def Store.alloc (s : Store) (a : NdArray) : Store × Nat :=
  (s ++ [a], s.length)

/-- `ExponentialDecoder` with its `_encoded` attribute modelled as a
reference into a store of array objects, to track aliasing and mutation. -/
structure RefDecoder where
  encodedRef : Nat
  size : Nat
  base : Int
  deriving DecidableEq

/-- One yield of `decode()` in the store model: the same arithmetic as
`ExponentialDecoder.step`, where `%`, `-`, `/` and `.astype` each produce a
fresh array and `self._encoded = remaining` rebinds the reference to a
freshly allocated object; no store entry is ever written in place. -/
def RefDecoder.step (s : Store) (d : RefDecoder) (index : Nat) :
    NdArray × RefDecoder × Store :=
  if index = 0 then (s.read d.encodedRef, d, s)
  else
    (⟨(s.read d.encodedRef).shape,
      (s.read d.encodedRef).data.map
        (fun z => ((z - z % d.base ^ index) / d.base ^ index) %
          ((s.read d.encodedRef).dtypeMod : Int)),
      (s.read d.encodedRef).dtypeMod⟩,
     { d with encodedRef := (s.alloc ⟨(s.read d.encodedRef).shape,
         (s.read d.encodedRef).data.map (fun z => z % d.base ^ index),
         (s.read d.encodedRef).dtypeMod⟩).2 },
     (s.alloc ⟨(s.read d.encodedRef).shape,
         (s.read d.encodedRef).data.map (fun z => z % d.base ^ index),
         (s.read d.encodedRef).dtypeMod⟩).1)

/-- Run the decode generator in the store model over a list of loop
indices. -/
def RefDecoder.run (s : Store) (d : RefDecoder) :
    List Nat → List NdArray × RefDecoder × Store
  | [] => ([], d, s)
  | i :: rest =>
      ((RefDecoder.step s d i).1 ::
          (RefDecoder.run (RefDecoder.step s d i).2.2 (RefDecoder.step s d i).2.1 rest).1,
       (RefDecoder.run (RefDecoder.step s d i).2.2 (RefDecoder.step s d i).2.1 rest).2)

/-! ### Arithmetic facts about the weighted sum computed by `encode` -/

theorem weightedSumFrom_append (b : Int) (xs : List Int) (y : Int) (i : Nat) :
    weightedSumFrom b (xs ++ [y]) i
      = weightedSumFrom b xs i + y * b ^ (i + xs.length) := by
  induction xs generalizing i with
  | nil => simp [weightedSumFrom]
  | cons v rest ih =>
      show v * b ^ i + weightedSumFrom b (rest ++ [y]) (i + 1)
          = v * b ^ i + weightedSumFrom b rest (i + 1) + y * b ^ (i + (rest.length + 1))
      rw [ih (i + 1), show i + 1 + rest.length = i + (rest.length + 1) by omega]
      ring

theorem weightedSumFrom_succ (b : Int) (xs : List Int) (i : Nat) :
    weightedSumFrom b xs (i + 1) = b * weightedSumFrom b xs i := by
  induction xs generalizing i with
  | nil => simp [weightedSumFrom]
  | cons v rest ih =>
      simp only [weightedSumFrom, ih]
      ring

theorem weightedSum_cons (b v : Int) (rest : List Int) :
    weightedSum (v :: rest) b = v + b * weightedSum rest b := by
  simp [weightedSum, weightedSumFrom, weightedSumFrom_succ]

theorem weightedSum_append (b : Int) (xs : List Int) (y : Int) :
    weightedSum (xs ++ [y]) b = weightedSum xs b + y * b ^ xs.length := by
  simpa using weightedSumFrom_append b xs y 0

theorem weightedSum_nonneg (b : Int) (hb : 1 < b) (xs : List Int)
    (h : ∀ v ∈ xs, 0 ≤ v) : 0 ≤ weightedSum xs b := by
  induction xs with
  | nil => simp [weightedSum, weightedSumFrom]
  | cons v rest ih =>
      rw [weightedSum_cons]
      have hv : 0 ≤ v := h v (List.mem_cons_self v rest)
      have hr : 0 ≤ weightedSum rest b := ih fun w hw => h w (List.mem_cons_of_mem v hw)
      nlinarith

theorem weightedSum_lt_pow (b : Int) (hb : 1 < b) (xs : List Int)
    (h : ∀ v ∈ xs, 0 ≤ v ∧ v < b) : weightedSum xs b < b ^ xs.length := by
  induction xs with
  | nil => simp [weightedSum, weightedSumFrom]
  | cons v rest ih =>
      rw [weightedSum_cons]
      have hv := h v (List.mem_cons_self v rest)
      have hr : weightedSum rest b < b ^ rest.length :=
        ih fun w hw => h w (List.mem_cons_of_mem v hw)
      have : b ^ (v :: rest).length = b * b ^ rest.length := by
        rw [List.length_cons, pow_succ]; ring
      rw [this]
      nlinarith [hv.2, hr, hb]

/-! ### Facts about `max(values)` -/

theorem foldl_max_mem (v : Int) (rest : List Int) : rest.foldl max v ∈ v :: rest := by
  induction rest generalizing v with
  | nil => simp
  | cons w rest ih =>
      simp only [List.foldl_cons]
      rcases List.mem_cons.mp (ih (max v w)) with h | h
      · rw [h]
        rcases max_choice v w with hm | hm <;> rw [hm]
        · exact List.mem_cons_self _ _
        · exact List.mem_cons_of_mem _ (List.mem_cons_self _ _)
      · exact List.mem_cons_of_mem _ (List.mem_cons_of_mem _ h)

theorem le_foldl_max (v : Int) (rest : List Int) :
    ∀ w ∈ v :: rest, w ≤ rest.foldl max v := by
  induction rest generalizing v with
  | nil => intro w hw; simp at hw; simp [hw]
  | cons u rest ih =>
      intro w hw
      simp only [List.foldl_cons]
      rcases List.mem_cons.mp hw with rfl | hw
      · exact le_trans (le_max_left w u) (ih (max w u) _ (List.mem_cons_self _ _))
      · rcases List.mem_cons.mp hw with rfl | hw
        · exact le_trans (le_max_right v w) (ih (max v w) _ (List.mem_cons_self _ _))
        · exact ih (max v u) w (List.mem_cons_of_mem _ hw)

theorem listMax_mem (vs : List Int) (h : vs ≠ []) : listMax vs ∈ vs := by
  match vs with
  | [] => exact absurd rfl h
  | v :: rest => exact foldl_max_mem v rest

theorem le_listMax (vs : List Int) (w : Int) (hw : w ∈ vs) : w ≤ listMax vs := by
  match vs with
  | [] => cases hw
  | v :: rest => exact le_foldl_max v rest w hw

theorem listMax_gt_iff (vs : List Int) (b : Int) (h : vs ≠ []) :
    listMax vs > b ↔ ∃ v ∈ vs, b < v := by
  constructor
  · intro hgt
    exact ⟨listMax vs, listMax_mem vs h, hgt⟩
  · rintro ⟨v, hv, hbv⟩
    exact lt_of_lt_of_le hbv (le_listMax vs v hv)

/-! ### The one-step inversion at the heart of `decode` -/

theorem emod_weightedSum_append (b : Int) (hb : 1 < b) (xs : List Int) (y : Int)
    (hxs : ∀ v ∈ xs, 0 ≤ v ∧ v < b) :
    weightedSum (xs ++ [y]) b % b ^ xs.length = weightedSum xs b := by
  rw [weightedSum_append, Int.add_mul_emod_self]
  exact Int.emod_eq_of_lt (weightedSum_nonneg b hb xs fun v hv => (hxs v hv).1)
    (weightedSum_lt_pow b hb xs hxs)

theorem ediv_weightedSum_append (b : Int) (hb : 1 < b) (xs : List Int) (y : Int) :
    (weightedSum (xs ++ [y]) b - weightedSum xs b) / b ^ xs.length = y := by
  rw [weightedSum_append]
  have hpow : (b : Int) ^ xs.length ≠ 0 := by positivity
  rw [add_sub_cancel_left, Int.mul_ediv_cancel y hpow]

theorem decodeDown_weightedSum (b : Int) (hb : 1 < b) :
    ∀ (k : Nat) (vs : List Int), vs.length = k + 1 →
      (∀ v ∈ vs, 0 ≤ v ∧ v < b) →
      decodeDown b k (weightedSum vs b) = vs.reverse := by
  intro k
  induction k with
  | zero =>
      intro vs hlen _
      obtain ⟨v, rfl⟩ := List.length_eq_one.mp hlen
      simp [decodeDown, weightedSum, weightedSumFrom]
  | succ k ih =>
      intro vs hlen hvs
      have hne : vs ≠ [] := by intro h; rw [h] at hlen; simp at hlen
      obtain ⟨xs, y, rfl⟩ : ∃ xs y, vs = xs ++ [y] :=
        ⟨vs.dropLast, vs.getLast hne, (List.dropLast_append_getLast hne).symm⟩
      have hxs : xs.length = k + 1 := by
        have := hlen; simp [List.length_append] at this; omega
      have hxsv : ∀ v ∈ xs, 0 ≤ v ∧ v < b :=
        fun v hv => hvs v (List.mem_append_left _ hv)
      rw [decodeDown]
      rw [show k + 1 = xs.length from hxs.symm]
      rw [emod_weightedSum_append b hb xs y hxsv,
          ediv_weightedSum_append b hb xs y,
          ih xs hxs hxsv, List.reverse_append, List.reverse_singleton,
          List.singleton_append]

/-- C1: scalar round-trip — for every base `b > 1` and every non-empty list
of integers each in `[0, b)`, `encode` succeeds and
`decode(encode(values, b), b, len(values))` returns the original values in
insertion order. -/
theorem scalar_roundtrip (b : Int) (vs : List Int) (hb : 1 < b) (hne : vs ≠ [])
    (hv : ∀ v ∈ vs, 0 ≤ v ∧ v < b) :
    ∃ e, encode (.listVal vs) b = Except.ok e ∧ decode e b vs.length = vs := by
  refine ⟨weightedSum vs b, ?_, ?_⟩
  · have hmax : ¬ listMax vs > b := by
      rw [listMax_gt_iff vs b hne]
      rintro ⟨v, hvm, hbv⟩
      exact absurd ((hv v hvm).2) (by omega)
    simp only [encode, List.length_eq_zero]
    rw [if_neg hne, if_neg (by omega), if_neg hmax]
  · have hlen : vs.length = (vs.length - 1) + 1 := by
      cases vs with
      | nil => exact absurd rfl hne
      | cons v rest => simp
    rw [decode, if_neg (by cases vs with | nil => exact absurd rfl hne | cons v rest => simp),
        decodeDown_weightedSum b hb (vs.length - 1) vs hlen hv, List.reverse_reverse]

/-- Witness for C1 at the spec's concrete scenario `encode([4,5,6], 7) = 333`,
`decode(333, 7, 3) = [4,5,6]`. -/
theorem scalar_roundtrip_witness :
    (1 : Int) < 7 ∧ ([4, 5, 6] : List Int) ≠ [] ∧
      ∃ e, encode (.listVal [4, 5, 6]) 7 = Except.ok e ∧ decode e 7 3 = [4, 5, 6] :=
  ⟨by decide, by decide,
    scalar_roundtrip 7 [4, 5, 6] (by decide) (by decide) (by decide)⟩

theorem decodeDown_closed (b : Int) (hb : 1 < b) :
    ∀ (k : Nat) (e : Int),
      decodeDown b k e = ((List.range (k + 1)).reverse).map
        (fun i => if i = k then e / b ^ k else (e % b ^ (i + 1)) / b ^ i) := by
  intro k
  induction k with
  | zero =>
      intro e
      simp [decodeDown, List.range_succ]
  | succ k ih =>
      intro e
      have hdes : (List.range (k + 1 + 1)).reverse
          = (k + 1) :: (List.range (k + 1)).reverse := by
        rw [List.range_succ, List.reverse_append, List.reverse_singleton,
            List.singleton_append]
      rw [hdes, List.map_cons, decodeDown]
      have hpow : (b : Int) ^ (k + 1) ≠ 0 := by positivity
      have hhead : (e - e % b ^ (k + 1)) / b ^ (k + 1) = e / b ^ (k + 1) := by
        conv_lhs => rw [Int.emod_def]
        rw [sub_sub_cancel, Int.mul_ediv_cancel_left _ hpow]
      rw [hhead, if_pos rfl, ih (e % b ^ (k + 1))]
      congr 1
      apply List.map_congr_left
      intro i hi
      rw [List.mem_reverse, List.mem_range] at hi
      have hik : i ≤ k := by omega
      by_cases hcase : i = k
      · rw [if_pos hcase, if_neg (by omega), hcase]
      · rw [if_neg hcase, if_neg (by omega),
            Int.emod_emod_of_dvd e (pow_dvd_pow b (by omega : i + 1 ≤ k + 1))]

/-- C4: scalar decode algorithm — for every `e ≥ 0`, `b > 1`, `s ≥ 1`,
`decode(e, b, s)` is the length-`s` list, in insertion order, whose entry at
position `i < s - 1` is `(e mod b^(i+1)) / b^i` and whose entry at the top
position `s - 1` is the plain quotient `e / b^(s-1)`. -/
theorem decode_closed_form (e b : Int) (s : Nat) (_he : 0 ≤ e) (hb : 1 < b) (hs : 1 ≤ s) :
    decode e b s = (List.range s).map
      (fun i => if i + 1 = s then e / b ^ (s - 1) else (e % b ^ (i + 1)) / b ^ i) := by
  have hs1 : s - 1 + 1 = s := by omega
  rw [decode, if_neg (by omega), decodeDown_closed b hb (s - 1) e, hs1,
      List.map_reverse, List.reverse_reverse]
  apply List.map_congr_left
  intro i hi
  rw [List.mem_range] at hi
  by_cases hcase : i = s - 1
  · rw [if_pos hcase, if_pos (by omega)]
  · rw [if_neg hcase, if_neg (by omega)]

/-- Witness for C4 at the spec's concrete scenario `decode(333, 7, 3)`. -/
theorem decode_closed_form_witness :
    (0 : Int) ≤ 333 ∧ (1 : Int) < 7 ∧ 1 ≤ 3 ∧
      decode 333 7 3 = (List.range 3).map
        (fun i => if i + 1 = 3 then (333 : Int) / 7 ^ (3 - 1)
          else ((333 : Int) % 7 ^ (i + 1)) / 7 ^ i) :=
  ⟨by decide, by decide, by decide,
    decode_closed_form 333 7 3 (by decide) (by decide) (by decide)⟩

/-- C5: value bound boundary — for a non-empty list of non-negative values
and `b > 1`, `encode` fails with the too-large error exactly when some value
is strictly greater than `b`; a value exactly equal to `b` is accepted and
the weighted sum is returned. -/
theorem encode_value_bound (vs : List Int) (b : Int) (hne : vs ≠ []) (hb : 1 < b)
    (hnn : ∀ v ∈ vs, 0 ≤ v) :
    (encode (.listVal vs) b = Except.error .valueTooLargeError ↔ ∃ v ∈ vs, b < v)
      ∧ ((∀ v ∈ vs, v ≤ b) → encode (.listVal vs) b = Except.ok (weightedSum vs b)) := by
  have hlen : ¬ vs.length = 0 := by
    cases vs with
    | nil => exact absurd rfl hne
    | cons _ _ => simp
  constructor
  · rw [← listMax_gt_iff vs b hne]
    constructor
    · intro h
      by_contra hmax
      simp only [encode, if_neg hlen, if_neg (by omega : ¬ b ≤ 1), if_neg hmax] at h
      exact Except.noConfusion h
    · intro hmax
      simp only [encode, if_neg hlen, if_neg (by omega : ¬ b ≤ 1), if_pos hmax]
  · intro hle
    have hmax : ¬ listMax vs > b := by
      rw [listMax_gt_iff vs b hne]
      rintro ⟨v, hv, hbv⟩
      exact absurd (hle v hv) (by omega)
    simp only [encode, if_neg hlen, if_neg (by omega : ¬ b ≤ 1), if_neg hmax]

/-- Witness for C5 at `values = [3, 1]`, `base = 3`: the list contains a
value exactly equal to the base and is accepted. -/
theorem encode_value_bound_witness :
    ([3, 1] : List Int) ≠ [] ∧ (1 : Int) < 3 ∧ (∀ v ∈ [(3 : Int), 1], 0 ≤ v) ∧
      ((encode (.listVal [3, 1]) 3 = Except.error .valueTooLargeError
          ↔ ∃ v ∈ [(3 : Int), 1], 3 < v)
        ∧ ((∀ v ∈ [(3 : Int), 1], v ≤ 3)
            → encode (.listVal [3, 1]) 3 = Except.ok (weightedSum [3, 1] 3))) :=
  ⟨by decide, by decide, by decide,
    encode_value_bound [3, 1] 3 (by decide) (by decide) (by decide)⟩

/-- C6: scalar encode precondition failures — non-iterable input (`None` or
a bare integer) and the empty list each fail with the invalid-input error,
regardless of the base; `base <= 1` on a non-empty list fails with the
distinct invalid-base error, regardless of the values. -/
theorem encode_precondition_errors (b z : Int) (vs : List Int) :
    encode .noneVal b = Except.error .invalidInputError
      ∧ encode (.intVal z) b = Except.error .invalidInputError
      ∧ encode (.listVal []) b = Except.error .invalidInputError
      ∧ (b ≤ 1 → vs ≠ [] → encode (.listVal vs) b = Except.error .invalidBaseError) := by
  refine ⟨rfl, rfl, rfl, ?_⟩
  intro hb hne
  have hlen : ¬ vs.length = 0 := by
    cases vs with
    | nil => exact absurd rfl hne
    | cons _ _ => simp
  simp only [encode, if_neg hlen, if_pos hb]

/-- Witness for C6 at `base = 1`, `values = [4]`, bare integer `4`. -/
theorem encode_precondition_errors_witness :
    encode .noneVal 1 = Except.error .invalidInputError
      ∧ encode (.intVal 4) 1 = Except.error .invalidInputError
      ∧ encode (.listVal []) 1 = Except.error .invalidInputError
      ∧ ((1 : Int) ≤ 1 ∧ ([4] : List Int) ≠ [] ∧
          encode (.listVal [4]) 1 = Except.error .invalidBaseError) :=
  ⟨(encode_precondition_errors 1 4 [4]).1,
   (encode_precondition_errors 1 4 [4]).2.1,
   (encode_precondition_errors 1 4 [4]).2.2.1,
   by decide, by decide,
   (encode_precondition_errors 1 4 [4]).2.2.2 (by decide) (by decide)⟩

/-- C9: negative values pass validation — `encode` only compares
`max(values)` against the base, so a list containing a negative value (for
example `[-1, 2]` with base `3`) is accepted and returns its weighted sum,
which can itself be negative (for example `[-2, 0]` with base `2`). -/
theorem encode_accepts_negative :
    encode (.listVal [-1, 2]) 3 = Except.ok 5
      ∧ encode (.listVal [-2, 0]) 2 = Except.ok (-2)
      ∧ (∃ v ∈ [(-1 : Int), 2], v < 0) ∧ (-2 : Int) < 0 := by
  decide

/-! ### List access helpers -/

theorem getD_mem_of_lt (l : List Int) (p : Nat) (hp : p < l.length) : l.getD p 0 ∈ l := by
  rw [List.getD_eq_getElem l 0 hp]
  exact List.getElem_mem hp

theorem map_getD_zero (f : Int → Int) (l : List Int) (p : Nat) (hp : p < l.length) :
    (l.map f).getD p 0 = f (l.getD p 0) := by
  rw [List.getD_eq_getElem _ 0 (by simpa using hp), List.getElem_map,
      List.getD_eq_getElem l 0 hp]

theorem zip_map_getD_zero (f : Int × Int → Int) (l1 l2 : List Int) (p : Nat)
    (h1 : p < l1.length) (h2 : p < l2.length) :
    ((l1.zip l2).map f).getD p 0 = f (l1.getD p 0, l2.getD p 0) := by
  have hz : p < (l1.zip l2).length := by
    rw [List.length_zip]
    omega
  rw [List.getD_eq_getElem _ 0 (by simpa using hz), List.getElem_map, List.getElem_zip,
      List.getD_eq_getElem l1 0 h1, List.getD_eq_getElem l2 0 h2]

theorem mapped_getD_bounds (ls : List NdArray) (b : Int) (m0 p : Nat) (hp : p < m0)
    (hlen : ∀ A ∈ ls, A.data.length = m0)
    (hvals : ∀ A ∈ ls, ∀ v ∈ A.data, 0 ≤ v ∧ v < b) :
    ∀ w ∈ ls.map (fun A => A.data.getD p 0), 0 ≤ w ∧ w < b := by
  intro w hw
  obtain ⟨A, hA, rfl⟩ := List.mem_map.mp hw
  exact hvals A hA _ (getD_mem_of_lt A.data p (by rw [hlen A hA]; exact hp))

/-! ### Sequences of `add` calls -/

theorem addAll_append (e : ExponentialEncoder) (l1 l2 : List NdArray) :
    addAll e (l1 ++ l2) = match addAll e l1 with
      | .ok e1 => addAll e1 l2
      | .error err => .error err := by
  induction l1 generalizing e with
  | nil => rfl
  | cons a l1 ih =>
      rw [List.cons_append, addAll, addAll]
      cases e.add a with
      | ok e1 => exact ih e1
      | error err => rfl

theorem addAll_shape_error (err : PyError) (s0 : List Nat) :
    ∀ (rest : List NdArray) (e : ExponentialEncoder),
      e.index ≠ 0 →
      (∃ arr, e.encoded = some arr ∧ arr.shape = s0) →
      (addAll e rest = Except.error err ↔
        err = .shapeMismatchError ∧ ∃ B ∈ rest, B.shape ≠ s0) := by
  intro rest
  induction rest with
  | nil =>
      intro e _ _
      constructor
      · intro h
        exact Except.noConfusion h
      · rintro ⟨_, B, hB, _⟩
        cases hB
  | cons B rest ih =>
      intro e hidx henc
      obtain ⟨arr, hencd, hshape⟩ := henc
      rw [addAll]
      by_cases hBs : B.shape = s0
      · have hadd : e.add B = Except.ok { e with
            encoded := some ⟨arr.shape, (arr.data.zip B.data).map
              (fun q => (q.1 + q.2 * e.base ^ e.index) % (e.dtypeMod : Int)),
              arr.dtypeMod⟩,
            index := e.index + 1 } := by
          rw [ExponentialEncoder.add, if_neg hidx, hencd]
          simp only [if_neg (show ¬ (B.shape ≠ arr.shape) from
            fun h => h (hBs.trans hshape.symm))]
        rw [hadd]
        rw [ih _ (by simp) ⟨⟨arr.shape, (arr.data.zip B.data).map
          (fun q => (q.1 + q.2 * e.base ^ e.index) % (e.dtypeMod : Int)),
          arr.dtypeMod⟩, rfl, hshape⟩]
        constructor
        · rintro ⟨rfl, B1, hB1, hB1s⟩
          exact ⟨rfl, B1, List.mem_cons_of_mem _ hB1, hB1s⟩
        · rintro ⟨rfl, B1, hB1, hB1s⟩
          rcases List.mem_cons.mp hB1 with rfl | hB1
          · exact absurd hBs hB1s
          · exact ⟨rfl, B1, hB1, hB1s⟩
      · have hadd : e.add B = Except.error .shapeMismatchError := by
          rw [ExponentialEncoder.add, if_neg hidx, hencd]
          simp only [if_pos (show B.shape ≠ arr.shape from
            fun h => hBs (h.trans hshape))]
        rw [hadd]
        constructor
        · intro h
          exact ⟨(Except.error.inj h).symm, B, List.mem_cons_self _ _, hBs⟩
        · rintro ⟨rfl, _, _, _⟩
          rfl

/-- C7: shape guard — the first `add` on a fresh encoder always succeeds
(its shape is never checked), and a sequence of adds fails exactly when a
second-or-later array's shape differs from the first array's shape, in
which case the error is the shape-mismatch error. -/
theorem add_shape_guard (M : Nat) (b : Int) (A : NdArray) (rest : List NdArray)
    (err : PyError) :
    (∃ e1, (ExponentialEncoder.init M b).add A = Except.ok e1)
      ∧ (addAll (ExponentialEncoder.init M b) (A :: rest) = Except.error err ↔
          err = .shapeMismatchError ∧ ∃ B ∈ rest, B.shape ≠ A.shape) := by
  constructor
  · exact ⟨_, rfl⟩
  · have h2 : addAll (ExponentialEncoder.init M b) (A :: rest)
        = addAll ⟨M, b, some ⟨A.shape, A.data.map (fun z => z % (M : Int)), M⟩, 1⟩ rest := rfl
    rw [h2]
    exact addAll_shape_error err A.shape rest _ (by simp) ⟨_, rfl, rfl⟩

/-! ### The combined-array invariant of the streaming encoder -/

theorem addAll_encoded (b : Int) (M : Nat) (hb : 1 < b) (s0 : List Nat) (m0 : Nat) :
    ∀ ls : List NdArray,
      (∀ A ∈ ls, A.shape = s0 ∧ A.data.length = m0) →
      (∀ A ∈ ls, ∀ v ∈ A.data, 0 ≤ v ∧ v < b) →
      (∀ p, p < m0 → weightedSum (ls.map (fun A => A.data.getD p 0)) b < (M : Int)) →
      ls ≠ [] →
      ∃ enc arr, addAll (ExponentialEncoder.init M b) ls = Except.ok enc
        ∧ enc.encoded = some arr ∧ enc.index = ls.length ∧ enc.base = b
        ∧ enc.dtypeMod = M ∧ arr.shape = s0 ∧ arr.data.length = m0 ∧ arr.dtypeMod = M
        ∧ ∀ p, p < m0 →
            arr.data.getD p 0 = weightedSum (ls.map (fun A => A.data.getD p 0)) b := by
  intro ls
  induction ls using List.reverseRecOn with
  | nil =>
      intro _ _ _ hne
      exact absurd rfl hne
  | append_singleton xs x ih =>
      intro hshape hvals hfit _
      rcases eq_or_ne xs [] with rfl | hxs
      · -- a single layer: the first add stores the cast copy
        refine ⟨⟨M, b, some ⟨x.shape, x.data.map (fun z => z % (M : Int)), M⟩, 1⟩,
          ⟨x.shape, x.data.map (fun z => z % (M : Int)), M⟩, rfl, rfl, by simp, rfl, rfl,
          (hshape x (by simp)).1, by simp [(hshape x (by simp)).2], rfl, ?_⟩
        intro p hp
        have hpx : p < x.data.length := by rw [(hshape x (by simp)).2]; exact hp
        rw [map_getD_zero _ x.data p hpx]
        have hv := hvals x (by simp) _ (getD_mem_of_lt x.data p hpx)
        have hsum : weightedSum ((([] : List NdArray) ++ [x]).map
            (fun A => A.data.getD p 0)) b = x.data.getD p 0 := by
          simp [weightedSum, weightedSumFrom]
        rw [hsum]
        exact Int.emod_eq_of_lt hv.1 (by rw [← hsum]; exact hfit p hp)
      · -- at least two layers: the last add contributes `x * b ^ xs.length`
        have hxs0 : ∀ A ∈ xs, A.shape = s0 ∧ A.data.length = m0 :=
          fun A hA => hshape A (List.mem_append_left _ hA)
        have hxsv : ∀ A ∈ xs, ∀ v ∈ A.data, 0 ≤ v ∧ v < b :=
          fun A hA => hvals A (List.mem_append_left _ hA)
        have hxlen : x.data.length = m0 := (hshape x (by simp)).2
        have hxv : ∀ v ∈ x.data, 0 ≤ v ∧ v < b := hvals x (by simp)
        have hsnoc : ∀ p, p < m0 →
            weightedSum ((xs ++ [x]).map (fun A => A.data.getD p 0)) b
              = weightedSum (xs.map (fun A => A.data.getD p 0)) b
                + x.data.getD p 0 * b ^ xs.length := by
          intro p hp
          rw [List.map_append, List.map_singleton, weightedSum_append, List.length_map]
        have hterm : ∀ p, p < m0 → 0 ≤ x.data.getD p 0 * b ^ xs.length := by
          intro p hp
          have hv := hxv _ (getD_mem_of_lt x.data p (by rw [hxlen]; exact hp))
          exact mul_nonneg hv.1 (by positivity)
        have hxsfit : ∀ p, p < m0 →
            weightedSum (xs.map (fun A => A.data.getD p 0)) b < (M : Int) := by
          intro p hp
          have := hfit p hp
          rw [hsnoc p hp] at this
          have := hterm p hp
          omega
        obtain ⟨enc, arr, hAll, hencd, hidx, hbase, hdm, harrsh, harrlen, harrdm, hpt⟩ :=
          ih hxs0 hxsv hxsfit hxs
        have hk0 : ¬ (enc.index = 0) := by
          rw [hidx]
          exact fun h => hxs (List.length_eq_zero.mp h)
        have hshx : ¬ (x.shape ≠ arr.shape) := by
          rw [harrsh, (hshape x (by simp)).1]
          exact fun h => h rfl
        have hadd : enc.add x = Except.ok { enc with
            encoded := some ⟨arr.shape, (arr.data.zip x.data).map
              (fun q => (q.1 + q.2 * enc.base ^ enc.index) % (enc.dtypeMod : Int)),
              arr.dtypeMod⟩,
            index := enc.index + 1 } := by
          rw [ExponentialEncoder.add, if_neg hk0, hencd]
          simp only [if_neg hshx]
        have hrun : addAll (ExponentialEncoder.init M b) (xs ++ [x])
            = Except.ok { enc with
                encoded := some ⟨arr.shape, (arr.data.zip x.data).map
                  (fun q => (q.1 + q.2 * enc.base ^ enc.index) % (enc.dtypeMod : Int)),
                  arr.dtypeMod⟩,
                index := enc.index + 1 } := by
          rw [addAll_append, hAll]
          show addAll enc [x] = _
          rw [addAll, hadd]
          rfl
        refine ⟨_, _, hrun, rfl, by simp [hidx], hbase, hdm, harrsh,
          by simp [List.length_zip, harrlen, hxlen], harrdm, ?_⟩
        intro p hp
        rw [zip_map_getD_zero _ arr.data x.data p (by rw [harrlen]; exact hp)
          (by rw [hxlen]; exact hp)]
        rw [hpt p hp, hbase, hidx, hdm, ← hsnoc p hp]
        have hnn : 0 ≤ weightedSum ((xs ++ [x]).map (fun A => A.data.getD p 0)) b :=
          weightedSum_nonneg b hb _ fun w hw =>
            (mapped_getD_bounds (xs ++ [x]) b m0 p hp (fun A hA => (hshape A hA).2) hvals
              w hw).1
        exact Int.emod_eq_of_lt hnn (hfit p hp)

/-- C3: encoder partial-sum invariant — after `k` successful adds of
equal-shaped layers with values in `[0, base)` whose per-pixel running sum
fits the target dtype, the `values` accessor holds, at every pixel, exactly
`Σ_{i<k} layer_i[pixel] * base^i`: the first add stores a cast copy (weight
`base^0 = 1`) and each later add contributes `layer * base^index`. -/
theorem encoder_partial_sums (b : Int) (M : Nat) (ls : List NdArray) (s0 : List Nat)
    (m0 : Nat) (hb : 1 < b) (hne : ls ≠ [])
    (hshape : ∀ A ∈ ls, A.shape = s0 ∧ A.data.length = m0)
    (hvals : ∀ A ∈ ls, ∀ v ∈ A.data, 0 ≤ v ∧ v < b)
    (hfit : ∀ p, p < m0 → weightedSum (ls.map (fun A => A.data.getD p 0)) b < (M : Int)) :
    ∃ enc arr, addAll (ExponentialEncoder.init M b) ls = Except.ok enc
      ∧ enc.values = some arr ∧ arr.shape = s0 ∧ arr.data.length = m0
      ∧ ∀ p, p < m0 →
          arr.data.getD p 0 = weightedSum (ls.map (fun A => A.data.getD p 0)) b := by
  obtain ⟨enc, arr, hAll, hencd, _, _, _, hsh, hlen, _, hpt⟩ :=
    addAll_encoded b M hb s0 m0 ls hshape hvals hfit hne
  exact ⟨enc, arr, hAll, hencd, hsh, hlen, hpt⟩

/-- Witness for C3 at the spec's concrete streaming scenario: layers
`[1]`, `[2]`, `[3]` with base `4` and dtype `uint32` give combined `[57]`,
and every partial sum fits. -/
theorem encoder_partial_sums_witness :
    (1 : Int) < 4
      ∧ ([⟨[1], [1], 2 ^ 32⟩, ⟨[1], [2], 2 ^ 32⟩, ⟨[1], [3], 2 ^ 32⟩] : List NdArray) ≠ []
      ∧ ∃ enc arr,
          addAll (ExponentialEncoder.init (2 ^ 32) 4)
              [⟨[1], [1], 2 ^ 32⟩, ⟨[1], [2], 2 ^ 32⟩, ⟨[1], [3], 2 ^ 32⟩]
            = Except.ok enc
          ∧ enc.values = some arr ∧ arr.shape = [1] ∧ arr.data.length = 1
          ∧ ∀ p, p < 1 →
              arr.data.getD p 0 = weightedSum
                (([⟨[1], [1], 2 ^ 32⟩, ⟨[1], [2], 2 ^ 32⟩,
                    ⟨[1], [3], 2 ^ 32⟩] : List NdArray).map
                  (fun A => A.data.getD p 0)) 4 :=
  ⟨by decide, by decide,
    encoder_partial_sums 4 (2 ^ 32)
      [⟨[1], [1], 2 ^ 32⟩, ⟨[1], [2], 2 ^ 32⟩, ⟨[1], [3], 2 ^ 32⟩] [1] 1
      (by decide) (by decide) (by decide) (by decide) (by decide)⟩

/-! ### The streaming decoder inverts the streaming encoder -/

theorem run_cons (d : ExponentialDecoder) (i : Nat) (rest : List Nat) :
    d.run (i :: rest)
      = ((d.step i).1 :: ((d.step i).2.run rest).1, ((d.step i).2.run rest).2) := rfl

theorem run_length (d : ExponentialDecoder) :
    ∀ l : List Nat, (d.run l).1.length = l.length := by
  intro l
  induction l generalizing d with
  | nil => rfl
  | cons i rest ih =>
      rw [run_cons]
      simp only [List.length_cons, ih]

theorem run_append (d : ExponentialDecoder) (l1 l2 : List Nat) :
    d.run (l1 ++ l2)
      = ((d.run l1).1 ++ ((d.run l1).2.run l2).1, ((d.run l1).2.run l2).2) := by
  induction l1 generalizing d with
  | nil => rfl
  | cons i rest ih =>
      rw [List.cons_append, run_cons, ih, run_cons]
      rfl

theorem run_decodes (b : Int) (hb : 1 < b) (s0 : List Nat) (m0 : Nat) :
    ∀ (ls : List NdArray) (arr : NdArray) (sz : Nat),
      (∀ A ∈ ls, A.shape = s0 ∧ A.data.length = m0) →
      (∀ A ∈ ls, ∀ v ∈ A.data, 0 ≤ v ∧ v < b) →
      b ^ ls.length ≤ (arr.dtypeMod : Int) →
      arr.shape = s0 → arr.data.length = m0 →
      (∀ p, p < m0 →
        arr.data.getD p 0 = weightedSum (ls.map (fun A => A.data.getD p 0)) b) →
      ((ExponentialDecoder.init arr sz b).run
            ((List.range ls.length).reverse)).1.map NdArray.data
          = (ls.map NdArray.data).reverse
        ∧ ((ExponentialDecoder.init arr sz b).run
            ((List.range ls.length).reverse)).1.map NdArray.shape
          = (ls.map NdArray.shape).reverse := by
  intro ls
  induction ls using List.reverseRecOn with
  | nil =>
      intro arr sz _ _ _ _ _ _
      exact ⟨rfl, rfl⟩
  | append_singleton xs x ih =>
      intro arr sz hshape hvals hfitM harrsh harrlen hpt
      have hxlen : x.data.length = m0 := (hshape x (by simp)).2
      have hxsh : x.shape = s0 := (hshape x (by simp)).1
      have hxv : ∀ v ∈ x.data, 0 ≤ v ∧ v < b := hvals x (by simp)
      have hxs0 : ∀ A ∈ xs, A.shape = s0 ∧ A.data.length = m0 :=
        fun A hA => hshape A (List.mem_append_left _ hA)
      have hxsv : ∀ A ∈ xs, ∀ v ∈ A.data, 0 ≤ v ∧ v < b :=
        fun A hA => hvals A (List.mem_append_left _ hA)
      have hlen1 : (xs ++ [x]).length = xs.length + 1 := by simp
      have hfit1 : b ^ (xs.length + 1) ≤ (arr.dtypeMod : Int) := by
        rw [← hlen1]
        exact hfitM
      have hbM : b ≤ (arr.dtypeMod : Int) := by
        have h1 : b ^ 1 ≤ b ^ (xs.length + 1) :=
          pow_le_pow_right₀ (le_of_lt hb) (by omega)
        rw [pow_one] at h1
        exact le_trans h1 hfit1
      have hdes : (List.range (xs ++ [x]).length).reverse
          = xs.length :: (List.range xs.length).reverse := by
        rw [hlen1, List.range_succ, List.reverse_append, List.reverse_singleton,
            List.singleton_append]
      rw [hdes, run_cons]
      rcases eq_or_ne xs [] with rfl | hxs
      · -- single layer: the index-0 step yields the remaining array itself
        have hdata : arr.data = x.data := by
          apply List.ext_getElem (by rw [harrlen, hxlen])
          intro p h1 h2
          have hp : p < m0 := by rw [← harrlen]; exact h1
          have hsum : weightedSum ((([] : List NdArray) ++ [x]).map
              (fun A => A.data.getD p 0)) b = x.data.getD p 0 := by
            simp [weightedSum, weightedSumFrom]
          have := hpt p hp
          rw [hsum] at this
          rw [← List.getD_eq_getElem arr.data 0 h1, ← List.getD_eq_getElem x.data 0 h2]
          exact this
        constructor
        · show List.map NdArray.data [arr] = (List.map NdArray.data ([] ++ [x])).reverse
          simp [hdata]
        · show List.map NdArray.shape [arr] = (List.map NdArray.shape ([] ++ [x])).reverse
          simp [harrsh, hxsh]
      · -- two or more layers: the first step peels the top layer
        have hk0 : ¬ (xs.length = 0) := fun h => hxs (List.length_eq_zero.mp h)
        have hkey : ∀ p, p < m0 →
            arr.data.getD p 0 % b ^ xs.length
                = weightedSum (xs.map (fun A => A.data.getD p 0)) b
              ∧ (arr.data.getD p 0 - arr.data.getD p 0 % b ^ xs.length) / b ^ xs.length
                = x.data.getD p 0 := by
          intro p hp
          have hz : arr.data.getD p 0
              = weightedSum ((xs.map (fun A => A.data.getD p 0))
                  ++ [x.data.getD p 0]) b := by
            rw [hpt p hp, List.map_append, List.map_singleton]
          have h1 := emod_weightedSum_append b hb (xs.map (fun A => A.data.getD p 0))
            (x.data.getD p 0)
            (mapped_getD_bounds xs b m0 p hp (fun A hA => (hxs0 A hA).2) hxsv)
          rw [List.length_map] at h1
          have h2 := ediv_weightedSum_append b hb (xs.map (fun A => A.data.getD p 0))
            (x.data.getD p 0)
          rw [List.length_map] at h2
          constructor
          · rw [hz, h1]
          · rw [hz, h1, h2]
        have hstep : (ExponentialDecoder.init arr sz b).step xs.length
            = (⟨arr.shape, arr.data.map (fun z =>
                  ((z - z % b ^ xs.length) / b ^ xs.length) % (arr.dtypeMod : Int)),
                arr.dtypeMod⟩,
               ExponentialDecoder.init ⟨arr.shape,
                 arr.data.map (fun z => z % b ^ xs.length), arr.dtypeMod⟩ sz b) := by
          rw [ExponentialDecoder.step, if_neg hk0]
          rfl
        have hdata : arr.data.map (fun z =>
            ((z - z % b ^ xs.length) / b ^ xs.length) % (arr.dtypeMod : Int)) = x.data := by
          apply List.ext_getElem (by rw [List.length_map, harrlen, hxlen])
          intro p h1 h2
          have hp : p < m0 := by
            rw [← harrlen]
            have := h1
            rw [List.length_map] at this
            exact this
          rw [List.getElem_map, ← List.getD_eq_getElem arr.data 0 (by rw [harrlen]; exact hp),
              ← List.getD_eq_getElem x.data 0 h2, (hkey p hp).2]
          have hvb := hxv _ (getD_mem_of_lt x.data p (by rw [hxlen]; exact hp))
          exact Int.emod_eq_of_lt hvb.1 (lt_of_lt_of_le hvb.2 hbM)
        have hrem : ∀ p, p < m0 →
            (arr.data.map (fun z => z % b ^ xs.length)).getD p 0
              = weightedSum (xs.map (fun A => A.data.getD p 0)) b := by
          intro p hp
          rw [map_getD_zero _ arr.data p (by rw [harrlen]; exact hp)]
          exact (hkey p hp).1
        obtain ⟨ih1, ih2⟩ := ih ⟨arr.shape, arr.data.map (fun z => z % b ^ xs.length),
            arr.dtypeMod⟩ sz hxs0 hxsv
          (le_trans (pow_le_pow_right₀ (le_of_lt hb) (by omega)) hfit1)
          harrsh (by rw [List.length_map, harrlen]) hrem
        rw [hstep]
        constructor
        · rw [List.map_cons, ih1, List.map_append, List.map_singleton,
              List.reverse_append, List.reverse_singleton, List.singleton_append, hdata]
        · rw [List.map_cons, ih2, List.map_append, List.map_singleton,
              List.reverse_append, List.reverse_singleton, List.singleton_append,
              harrsh, hxsh]

/-- C2: streaming round-trip — for `b > 1` and a non-empty sequence of
equal-shaped layers with values in `[0, b)` such that `base^n - 1` fits the
target dtype, adding the layers in order and then fully draining a decoder
built from `(encoder.values, n, b)` yields the original layers exactly,
elementwise, in reverse insertion order. -/
theorem streaming_roundtrip (b : Int) (M : Nat) (ls : List NdArray) (s0 : List Nat)
    (m0 : Nat) (hb : 1 < b) (hne : ls ≠ [])
    (hshape : ∀ A ∈ ls, A.shape = s0 ∧ A.data.length = m0)
    (hvals : ∀ A ∈ ls, ∀ v ∈ A.data, 0 ≤ v ∧ v < b)
    (hfit : b ^ ls.length ≤ (M : Int)) :
    ∃ enc arr, addAll (ExponentialEncoder.init M b) ls = Except.ok enc
      ∧ enc.values = some arr
      ∧ ((ExponentialDecoder.init arr ls.length b).run
            (ExponentialDecoder.init arr ls.length b).indices).1.map NdArray.data
          = (ls.map NdArray.data).reverse
      ∧ ((ExponentialDecoder.init arr ls.length b).run
            (ExponentialDecoder.init arr ls.length b).indices).1.map NdArray.shape
          = (ls.map NdArray.shape).reverse := by
  have hfitpt : ∀ p, p < m0 →
      weightedSum (ls.map (fun A => A.data.getD p 0)) b < (M : Int) := by
    intro p hp
    have hbd : weightedSum (ls.map (fun A => A.data.getD p 0)) b
        < b ^ (ls.map (fun A => A.data.getD p 0)).length :=
      weightedSum_lt_pow b hb _
        (mapped_getD_bounds ls b m0 p hp (fun A hA => (hshape A hA).2) hvals)
    rw [List.length_map] at hbd
    exact lt_of_lt_of_le hbd hfit
  obtain ⟨enc, arr, hAll, hencd, _, _, _, harrsh, harrlen, harrdm, hpt⟩ :=
    addAll_encoded b M hb s0 m0 ls hshape hvals hfitpt hne
  obtain ⟨h1, h2⟩ := run_decodes b hb s0 m0 ls arr ls.length hshape hvals
    (by rw [harrdm]; exact hfit) harrsh harrlen hpt
  exact ⟨enc, arr, hAll, hencd, h1, h2⟩

/-- Witness for C2 at the spec's concrete streaming scenario: layers `[1]`,
`[2]`, `[3]` with base `4` and dtype `uint32` encode to `[57]` and decode to
`[3]`, `[2]`, `[1]`. -/
theorem streaming_roundtrip_witness :
    (1 : Int) < 4
      ∧ ([⟨[1], [1], 2 ^ 32⟩, ⟨[1], [2], 2 ^ 32⟩, ⟨[1], [3], 2 ^ 32⟩] : List NdArray) ≠ []
      ∧ (4 : Int) ^ ([⟨[1], [1], 2 ^ 32⟩, ⟨[1], [2], 2 ^ 32⟩,
          ⟨[1], [3], 2 ^ 32⟩] : List NdArray).length ≤ ((2 ^ 32 : Nat) : Int)
      ∧ ∃ enc arr,
          addAll (ExponentialEncoder.init (2 ^ 32) 4)
              [⟨[1], [1], 2 ^ 32⟩, ⟨[1], [2], 2 ^ 32⟩, ⟨[1], [3], 2 ^ 32⟩]
            = Except.ok enc
          ∧ enc.values = some arr
          ∧ ((ExponentialDecoder.init arr 3 4).run
                (ExponentialDecoder.init arr 3 4).indices).1.map NdArray.data
              = ([[1], [2], [3]] : List (List Int)).reverse
          ∧ ((ExponentialDecoder.init arr 3 4).run
                (ExponentialDecoder.init arr 3 4).indices).1.map NdArray.shape
              = ([[1], [1], [1]] : List (List Nat)).reverse :=
  ⟨by decide, by decide, by decide,
    streaming_roundtrip 4 (2 ^ 32)
      [⟨[1], [1], 2 ^ 32⟩, ⟨[1], [2], 2 ^ 32⟩, ⟨[1], [3], 2 ^ 32⟩] [1] 1
      (by decide) (by decide) (by decide) (by decide) (by decide)⟩

/-! ### Partial consumption of the decode generator -/

theorem range_reverse_drop (n k : Nat) :
    ((List.range n).reverse).drop k = (List.range (n - k)).reverse := by
  rw [List.drop_reverse, List.length_range, List.take_range,
      min_eq_left (Nat.sub_le n k)]

/-- C8: decoder sequence shape and partial consumption — a full drain of
`decode()` yields exactly `size` items, over loop indices `size-1` down to
`0`; after drawing any `k` items, the remaining indices are `size-1-k` down
to `0` and continuing from the partially-consumed state yields exactly the
items a full drain would have produced for those positions. -/
theorem decoder_sequence_split (d : ExponentialDecoder) (k : Nat) :
    (d.run d.indices).1.length = d.size
      ∧ d.indices.drop k = (List.range (d.size - k)).reverse
      ∧ (d.run d.indices).1
          = (d.run (d.indices.take k)).1
            ++ ((d.run (d.indices.take k)).2.run (d.indices.drop k)).1
      ∧ (d.run d.indices).2
          = ((d.run (d.indices.take k)).2.run (d.indices.drop k)).2 := by
  refine ⟨?_, ?_, ?_, ?_⟩
  · rw [run_length, ExponentialDecoder.indices, List.length_reverse, List.length_range]
  · rw [ExponentialDecoder.indices]
    exact range_reverse_drop d.size k
  · conv_lhs => rw [← List.take_append_drop k d.indices, run_append]
  · conv_lhs => rw [← List.take_append_drop k d.indices, run_append]

/-! ### The decoder never mutates existing array objects -/

theorem store_read_append (s : Store) (a : NdArray) (r : Nat) (hr : r < s.length) :
    Store.read (s ++ [a]) r = s.read r := by
  rw [Store.read, Store.read, List.getD_append _ _ _ _ hr]

theorem refstep_store (s : Store) (d : RefDecoder) (i : Nat) :
    ((RefDecoder.step s d i).2.2 = s)
      ∨ ∃ a, (RefDecoder.step s d i).2.2 = s ++ [a] := by
  rw [RefDecoder.step]
  by_cases h : i = 0
  · rw [if_pos h]
    exact Or.inl rfl
  · rw [if_neg h]
    exact Or.inr ⟨_, rfl⟩

theorem refrun_read (l : List Nat) :
    ∀ (s : Store) (d : RefDecoder) (r : Nat), r < s.length →
      ((RefDecoder.run s d l).2.2).read r = s.read r := by
  induction l with
  | nil =>
      intro s d r _
      rfl
  | cons i rest ih =>
      intro s d r hr
      show ((RefDecoder.run (RefDecoder.step s d i).2.2
          (RefDecoder.step s d i).2.1 rest).2.2).read r = s.read r
      rcases refstep_store s d i with h | ⟨a, h⟩
      · rw [h, ih s _ r hr]
      · rw [h, ih (s ++ [a]) _ r (by rw [List.length_append]; omega)]
        exact store_read_append s a r hr

/-- C10: decoding never mutates the caller's array — every `decode()` step
either yields the current array unchanged (index `0`) or allocates fresh
quotient and remainder arrays and rebinds `self._encoded` to the fresh
remainder; so the store entry the decoder was constructed with (and every
other pre-existing entry) reads back unchanged after any number of steps. -/
theorem decoder_never_mutates (s : Store) (d : RefDecoder) (l : List Nat)
    (hr : d.encodedRef < s.length) :
    (∀ r, r < s.length → ((RefDecoder.run s d l).2.2).read r = s.read r)
      ∧ ((RefDecoder.run s d l).2.2).read d.encodedRef = s.read d.encodedRef :=
  ⟨fun r hrr => refrun_read l s d r hrr, refrun_read l s d d.encodedRef hr⟩

/-- Witness for C10: a one-array store holding the combined array `[57]`,
fully drained over indices `2, 1, 0`. -/
theorem decoder_never_mutates_witness :
    (0 : Nat) < ([⟨[1], [57], 2 ^ 32⟩] : Store).length
      ∧ ((∀ r, r < ([⟨[1], [57], 2 ^ 32⟩] : Store).length →
            ((RefDecoder.run [⟨[1], [57], 2 ^ 32⟩] ⟨0, 3, 4⟩ [2, 1, 0]).2.2).read r
              = Store.read [⟨[1], [57], 2 ^ 32⟩] r)
          ∧ ((RefDecoder.run [⟨[1], [57], 2 ^ 32⟩] ⟨0, 3, 4⟩ [2, 1, 0]).2.2).read
              (RefDecoder.encodedRef ⟨0, 3, 4⟩)
            = Store.read [⟨[1], [57], 2 ^ 32⟩] (RefDecoder.encodedRef ⟨0, 3, 4⟩)) :=
  ⟨by decide, decoder_never_mutates [⟨[1], [57], 2 ^ 32⟩] ⟨0, 3, 4⟩ [2, 1, 0] (by decide)⟩

end Datatiles
